import Mathlib

/-!
Verification of the SMF note-diffing engine of
`create_svg_showing_smf_mistakes`.

The development shallowly embeds the core algorithms of the repository:

* `diff_levenshtein.py` — the exact global edit-distance matcher
  (`LevenshteinMatcher`): DP table (`calc_dp`), backtrace
  (`calc_backtrace`), opcode extraction (`calc_opcodes` /
  `get_opcodes`), distance (`get_levenshtein_distance`).
* `smf_parse.py` — the musical-time model (`mbt_calc` with
  `set_time_signature` / `add_ticks`) and the note extractor
  (`create_note_on_off`, `create_notes`, `process_smf`).
* `smf_sort_poly.py` — the polyphonic sorter (`sort_poly_sorted`).
* `smf_diff.py` — the diff engine pieces: matched-note collection
  (`diff_matched`), tempo ratio (`calc_time_ratio`) and the extra-note
  range query (`get_extra_note_by_range`).

Python machine integers are arbitrary-precision, so `ℕ`/`ℤ` model them
exactly; float seconds are modelled as `ℚ` (all arithmetic the claims
exercise is exact).  The matcher compares elements through Python
hashes; a sequence is therefore embedded as its list of hash values
(`List ℕ`), equality of which is the injected element equality.
-/

/-! ### `diff_levenshtein.py`: cost parameters and the DP table

`LevenshteinMatcher.__init__` fixes `cost_insert = 1`, `cost_delete = 1`,
`cost_replace = 2`.  `__calc_dp` builds the table row by row:
`dp[0][j] = j*cost_insert`, `dp[i][0] = i*cost_delete`,
`dp[i][j] = min(dp[i-1][j]+cost_delete, dp[i][j-1]+cost_insert,
dp[i-1][j-1]+cost)` with `cost = 0` if the elements' hashes agree and
`cost_replace` otherwise. -/

def cost_insert : ℕ := 1

def cost_delete : ℕ := 1

def cost_replace : ℕ := 2

/-- The substitution cost of cell `(i+1, j+1)`: `0` when `a[i]` and `b[j]`
agree, `cost_replace` otherwise (`__calc_dp`'s local `cost`). -/
def cost_at (a b : List ℕ) (i j : ℕ) : ℕ :=
  if a.getD i 0 = b.getD j 0 then 0 else cost_replace

/-- Row `i+1` of the DP table, built from row `i` (the inner `for j` loop
of `__calc_dp`).  `row` is row `i` as a function of the column. -/
def calc_dp_cell (a b : List ℕ) (row : ℕ → ℕ) (i : ℕ) : ℕ → ℕ
  | 0 => (i + 1) * cost_delete
  | j + 1 =>
      min (row (j + 1) + cost_delete)
        (min (calc_dp_cell a b row i j + cost_insert)
          (row j + cost_at a b i j))

/-- The DP table of `__calc_dp`, row by row (the outer `for i` loop). -/
def calc_dp_rows (a b : List ℕ) : ℕ → ℕ → ℕ
  | 0 => fun j => j * cost_insert
  | i + 1 => fun j => calc_dp_cell a b (calc_dp_rows a b i) i j

/-- `dp[i][j]` of `__calc_dp`. -/
def calc_dp (a b : List ℕ) (i j : ℕ) : ℕ := calc_dp_rows a b i j

/-- `get_levenshtein_distance()`: the bottom-right DP cell. -/
def get_levenshtein_distance (a b : List ℕ) : ℕ :=
  calc_dp a b a.length b.length

theorem calc_dp_zero_left (a b : List ℕ) (j : ℕ) :
    calc_dp a b 0 j = j * cost_insert := rfl

theorem calc_dp_zero_right (a b : List ℕ) (i : ℕ) :
    calc_dp a b (i + 1) 0 = (i + 1) * cost_delete := rfl

theorem calc_dp_succ_succ (a b : List ℕ) (i j : ℕ) :
    calc_dp a b (i + 1) (j + 1) =
      min (calc_dp a b i (j + 1) + cost_delete)
        (min (calc_dp a b (i + 1) j + cost_insert)
          (calc_dp a b i j + cost_at a b i j)) := rfl

/-! ### Longest common subsequence

`lcsLen` is the textbook LCS-length recursion; the spec's
`LCS_length(A, B)` under the injected equality.  It is characterised
below as the maximal length of a common `List.Sublist`. -/

def lcsLen : List ℕ → List ℕ → ℕ
  | [], _ => 0
  | _ :: _, [] => 0
  | x :: xs, y :: ys =>
      if x = y then lcsLen xs ys + 1
      else max (lcsLen (x :: xs) ys) (lcsLen xs (y :: ys))
termination_by xs ys => xs.length + ys.length

theorem lcsLen_nil_left (ys : List ℕ) : lcsLen [] ys = 0 := by
  simp [lcsLen]

theorem lcsLen_nil_right (x : ℕ) (xs : List ℕ) : lcsLen (x :: xs) [] = 0 := by
  simp [lcsLen]

theorem lcsLen_cons_cons (x y : ℕ) (xs ys : List ℕ) :
    lcsLen (x :: xs) (y :: ys) =
      if x = y then lcsLen xs ys + 1
      else max (lcsLen (x :: xs) ys) (lcsLen xs (y :: ys)) := by
  simp [lcsLen]

/-- Some common subsequence attains `lcsLen`. -/
theorem lcsLen_exists : ∀ xs ys : List ℕ,
    ∃ zs : List ℕ, zs.Sublist xs ∧ zs.Sublist ys ∧ zs.length = lcsLen xs ys
  | [], ys => ⟨[], by simp [lcsLen_nil_left]⟩
  | x :: xs, [] => ⟨[], by simp [lcsLen_nil_right]⟩
  | x :: xs, y :: ys => by
    rw [lcsLen_cons_cons]
    by_cases h : x = y
    · obtain ⟨zs, h1, h2, h3⟩ := lcsLen_exists xs ys
      subst h
      exact ⟨x :: zs, List.cons_sublist_cons.mpr h1,
        List.cons_sublist_cons.mpr h2, by simp [h3]⟩
    · obtain ⟨zs₁, a1, a2, a3⟩ := lcsLen_exists (x :: xs) ys
      obtain ⟨zs₂, b1, b2, b3⟩ := lcsLen_exists xs (y :: ys)
      rcases Nat.le_total (lcsLen (x :: xs) ys) (lcsLen xs (y :: ys)) with
        hle | hle
      · exact ⟨zs₂, b1.trans (List.sublist_cons_self x xs), b2, by
          simp [h, b3, Nat.max_eq_right hle]⟩
      · exact ⟨zs₁, a1, a2.trans (List.sublist_cons_self y ys), by
          simp [h, a3, Nat.max_eq_left hle]⟩
termination_by xs ys => xs.length + ys.length

/-- Every common subsequence is at most `lcsLen` long. -/
theorem lcsLen_is_ub : ∀ xs ys zs : List ℕ,
    zs.Sublist xs → zs.Sublist ys → zs.length ≤ lcsLen xs ys
  | _, _, [] => fun _ _ => Nat.zero_le _
  | [], _, z :: zt => fun h1 _ => by simp at h1
  | _ :: _, [], z :: zt => fun _ h2 => by simp at h2
  | x :: xs, y :: ys, z :: zt => fun h1 h2 => by
    by_cases h : x = y
    · have hql : lcsLen (x :: xs) (y :: ys) = lcsLen xs ys + 1 := by
        rw [lcsLen_cons_cons, if_pos h]
      rw [hql]
      rcases List.sublist_cons_iff.mp h1 with h1' | ⟨r1, hr1, h1'⟩
      · rcases List.sublist_cons_iff.mp h2 with h2' | ⟨r2, hr2, h2'⟩
        · exact (lcsLen_is_ub xs ys (z :: zt) h1' h2').trans (Nat.le_succ _)
        · injection hr2 with hz ht
          subst ht
          have hx : zt.Sublist xs := (List.sublist_cons_self z zt).trans h1'
          have := lcsLen_is_ub xs ys zt hx h2'
          simp only [List.length_cons]
          omega
      · injection hr1 with hz ht
        subst ht
        rcases List.sublist_cons_iff.mp h2 with h2' | ⟨r2, hr2, h2'⟩
        · have hy : zt.Sublist ys := (List.sublist_cons_self z zt).trans h2'
          have := lcsLen_is_ub xs ys zt h1' hy
          simp only [List.length_cons]
          omega
        · injection hr2 with _ ht2
          subst ht2
          have := lcsLen_is_ub xs ys zt h1' h2'
          simp only [List.length_cons]
          omega
    · have hql : lcsLen (x :: xs) (y :: ys) =
          max (lcsLen (x :: xs) ys) (lcsLen xs (y :: ys)) := by
        rw [lcsLen_cons_cons, if_neg h]
      rw [hql]
      rcases List.sublist_cons_iff.mp h1 with h1' | ⟨r1, hr1, h1'⟩
      · exact (lcsLen_is_ub xs (y :: ys) (z :: zt) h1' h2).trans
          (Nat.le_max_right _ _)
      · rcases List.sublist_cons_iff.mp h2 with h2' | ⟨r2, hr2, h2'⟩
        · exact (lcsLen_is_ub (x :: xs) ys (z :: zt) h1 h2').trans
            (Nat.le_max_left _ _)
        · injection hr1 with hz1 _
          injection hr2 with hz2 _
          exact absurd (hz1.symm.trans hz2) h
termination_by xs ys zs => xs.length + ys.length

theorem lcsLen_reverse (xs ys : List ℕ) :
    lcsLen xs.reverse ys.reverse = lcsLen xs ys := by
  apply Nat.le_antisymm
  · obtain ⟨zs, h1, h2, h3⟩ := lcsLen_exists xs.reverse ys.reverse
    have := lcsLen_is_ub xs ys zs.reverse
      (by simpa using h1.reverse) (by simpa using h2.reverse)
    simpa [h3] using this
  · obtain ⟨zs, h1, h2, h3⟩ := lcsLen_exists xs ys
    have := lcsLen_is_ub xs.reverse ys.reverse zs.reverse
      h1.reverse h2.reverse
    simpa [h3] using this

theorem lcsLen_le_cons_left (x : ℕ) (xs ys : List ℕ) :
    lcsLen xs ys ≤ lcsLen (x :: xs) ys := by
  obtain ⟨zs, h1, h2, h3⟩ := lcsLen_exists xs ys
  simpa [h3] using
    lcsLen_is_ub (x :: xs) ys zs (h1.trans (List.sublist_cons_self x xs)) h2

theorem lcsLen_le_cons_right (y : ℕ) (xs ys : List ℕ) :
    lcsLen xs ys ≤ lcsLen xs (y :: ys) := by
  obtain ⟨zs, h1, h2, h3⟩ := lcsLen_exists xs ys
  simpa [h3] using
    lcsLen_is_ub xs (y :: ys) zs h1 (h2.trans (List.sublist_cons_self y ys))

theorem lcsLen_cons_left_le (x : ℕ) (xs ys : List ℕ) :
    lcsLen (x :: xs) ys ≤ lcsLen xs ys + 1 := by
  obtain ⟨zs, h1, h2, h3⟩ := lcsLen_exists (x :: xs) ys
  rcases List.sublist_cons_iff.mp h1 with h1' | ⟨r, hr, h1'⟩
  · exact h3 ▸ (lcsLen_is_ub xs ys zs h1' h2).trans (Nat.le_succ _)
  · subst hr
    have h2' : r.Sublist ys := (List.sublist_cons_self x r).trans h2
    have := lcsLen_is_ub xs ys r h1' h2'
    simp only [← h3, List.length_cons]
    omega

theorem lcsLen_cons_right_le (y : ℕ) (xs ys : List ℕ) :
    lcsLen xs (y :: ys) ≤ lcsLen xs ys + 1 := by
  obtain ⟨zs, h1, h2, h3⟩ := lcsLen_exists xs (y :: ys)
  rcases List.sublist_cons_iff.mp h2 with h2' | ⟨r, hr, h2'⟩
  · exact h3 ▸ (lcsLen_is_ub xs ys zs h1 h2').trans (Nat.le_succ _)
  · subst hr
    have h1' : r.Sublist xs := (List.sublist_cons_self y r).trans h1
    have := lcsLen_is_ub xs ys r h1' h2'
    simp only [← h3, List.length_cons]
    omega

/-! ### The DP table computes `len A + len B − 2·LCS` -/

theorem take_succ_reverse (a : List ℕ) (i : ℕ) (h : i < a.length) :
    (a.take (i + 1)).reverse = a.getD i 0 :: (a.take i).reverse := by
  rw [List.take_succ, List.getElem?_eq_getElem h, List.getD_eq_getElem a 0 h]
  simp

theorem calc_dp_lcs (a b : List ℕ) : ∀ i j : ℕ,
    i ≤ a.length → j ≤ b.length →
    calc_dp a b i j + 2 * lcsLen (a.take i).reverse (b.take j).reverse
      = i + j
  | 0, j, _, _ => by
    simp [calc_dp_zero_left, lcsLen_nil_left, cost_insert]
  | i + 1, 0, hi, _ => by
    have ha : a.take (i + 1) ≠ [] := by
      intro h
      have := congrArg List.length h
      simp only [List.length_take, List.length_nil] at this
      omega
    simp only [calc_dp_zero_right, List.take_zero, List.reverse_nil]
    rcases hr : (a.take (i + 1)).reverse with _ | ⟨x, xs⟩
    · exact absurd (List.reverse_eq_nil_iff.mp hr) ha
    · simp [lcsLen_nil_right, cost_delete]
  | i + 1, j + 1, hi, hj => by
    have hi' : i < a.length := by omega
    have hj' : j < b.length := by omega
    have e1 := calc_dp_lcs a b i (j + 1) (by omega) hj
    have e2 := calc_dp_lcs a b (i + 1) j hi (by omega)
    have e3 := calc_dp_lcs a b i j (by omega) (by omega)
    rw [take_succ_reverse a i hi'] at e2 ⊢
    rw [take_succ_reverse b j hj'] at e1 ⊢
    rw [calc_dp_succ_succ, lcsLen_cons_cons, cost_at]
    by_cases h : a.getD i 0 = b.getD j 0
    · have l1 := lcsLen_cons_right_le (b.getD j 0)
        (a.take i).reverse (b.take j).reverse
      have l2 := lcsLen_cons_left_le (a.getD i 0)
        (a.take i).reverse (b.take j).reverse
      rw [if_pos h, if_pos h]
      simp only [cost_insert, cost_delete] at e1 e2 e3 ⊢
      omega
    · have m1 := lcsLen_le_cons_left (a.getD i 0)
        (a.take i).reverse (b.take j).reverse
      have m2 := lcsLen_le_cons_right (b.getD j 0)
        (a.take i).reverse (b.take j).reverse
      rw [if_neg h, if_neg h]
      simp only [cost_insert, cost_delete, cost_replace] at e1 e2 e3 ⊢
      omega
termination_by i j => i + j

/-- **C2.** With costs insertion = 1, deletion = 1, substitution = 2,
`get_levenshtein_distance()` returns `len A + len B − 2·LCS_length(A, B)`
for every pair of sequences (compared through the injected element
equality, i.e. equality of the hash lists). -/
theorem get_levenshtein_distance_lcs (a b : List ℕ) :
    get_levenshtein_distance a b = a.length + b.length - 2 * lcsLen a b ∧
      2 * lcsLen a b ≤ a.length + b.length := by
  have h := calc_dp_lcs a b a.length b.length le_rfl le_rfl
  rw [List.take_length, List.take_length, lcsLen_reverse] at h
  unfold get_levenshtein_distance
  omega

/-! ### `__calc_backtrace`: the backward walk over the DP table

The Python `while i > 0 and j > 0` loop appends one record
`(cost == 0, i, j)` per visited cell, testing the three moves in the
fixed priority order diagonal → insert (`j -= 1`) → delete (`i -= 1`);
the two trailing `while` loops drain a remaining row or column.  The
list is built in walk order (bottom-right first) and reversed at the
end.  A record is `(flag, i, j) : Bool × ℕ × ℕ`. -/

/-- The trailing `while j > 0` loop at `i = 0` (pure inserts). -/
def trace_ins : ℕ → List (Bool × ℕ × ℕ)
  | 0 => []
  | j + 1 => (false, 0, j + 1) :: trace_ins j

/-- One row of the backward walk: the walk starting at cell `(i+1, j)`,
given the walk `next` from any cell of row `i`.  At `j = 0` this is the
trailing `while i > 0` loop (a delete step); otherwise the three moves
are tested in the source's priority order.  The final `[]` is the
`raise RuntimeError('Invalid DP')` branch, which `trace_row_total`
below proves unreachable. -/
def trace_row (a b : List ℕ) (next : ℕ → List (Bool × ℕ × ℕ)) (i : ℕ) :
    ℕ → List (Bool × ℕ × ℕ)
  | 0 => (false, i + 1, 0) :: next 0
  | j + 1 =>
      if calc_dp a b (i + 1) (j + 1) = calc_dp a b i j + cost_at a b i j then
        (decide (cost_at a b i j = 0), i + 1, j + 1) :: next j
      else if calc_dp a b (i + 1) (j + 1) =
          calc_dp a b (i + 1) j + cost_insert then
        (false, i + 1, j + 1) :: trace_row a b next i j
      else if calc_dp a b (i + 1) (j + 1) =
          calc_dp a b i (j + 1) + cost_delete then
        (false, i + 1, j + 1) :: next (j + 1)
      else []

/-- The backward walk from cell `(i, j)` down to `(0, 0)`, in walk
order (the list Python builds before its final `reverse`). -/
def trace_back (a b : List ℕ) : ℕ → ℕ → List (Bool × ℕ × ℕ)
  | 0, j => trace_ins j
  | i + 1, j => trace_row a b (trace_back a b i) i j

/-- `__calc_backtrace`'s result: the walk from `(len a, len b)`,
reversed into chronological order. -/
def calc_backtrace (a b : List ℕ) : List (Bool × ℕ × ℕ) :=
  (trace_back a b a.length b.length).reverse

/-- One of the three moves is always cost-optimal, so the
`RuntimeError('Invalid DP')` branch of the walk is unreachable. -/
theorem calc_dp_move_exists (a b : List ℕ) (i j : ℕ) :
    calc_dp a b (i + 1) (j + 1) = calc_dp a b i j + cost_at a b i j ∨
    calc_dp a b (i + 1) (j + 1) = calc_dp a b (i + 1) j + cost_insert ∨
    calc_dp a b (i + 1) (j + 1) = calc_dp a b i (j + 1) + cost_delete := by
  have h := calc_dp_succ_succ a b i j
  omega

/-! ### Alignment operations (opcodes) -/

inductive OpTag : Type where
  | equal : OpTag
  | insert : OpTag
  | delete : OpTag
  | replace : OpTag
deriving DecidableEq, Repr

/-- One entry of `get_opcodes()`: `(tag, i1, i2, j1, j2)`. -/
structure Opcode : Type where
  tag : OpTag
  i1 : ℕ
  i2 : ℕ
  j1 : ℕ
  j2 : ℕ
deriving DecidableEq, Repr

/-- `LevenshteinMatcher.__append_opcode`: classify one coalesced run.
`none` is the `raise RuntimeError('Invalid trace')` branch. -/
def append_opcode (before_flag : Bool) (begin_i before_i begin_j before_j : ℕ) :
    Option Opcode :=
  if before_flag then
    some ⟨OpTag.equal, begin_i, before_i, begin_j, before_j⟩
  else if begin_i = before_i ∧ begin_j < before_j then
    some ⟨OpTag.insert, begin_i, before_i, begin_j, before_j⟩
  else if begin_i < before_i ∧ begin_j = before_j then
    some ⟨OpTag.delete, begin_i, before_i, begin_j, before_j⟩
  else if begin_i < before_i ∧ begin_j < before_j then
    some ⟨OpTag.replace, begin_i, before_i, begin_j, before_j⟩
  else none

/-- The run-coalescing loop of `__calc_opcodes`, over the chronological
trace, with the loop state `(before_flag, begin_i, before_i, begin_j,
before_j)`.  `none` models the `RuntimeError` paths. -/
def opcodes_loop :
    List (Bool × ℕ × ℕ) → Bool → ℕ → ℕ → ℕ → ℕ → Option (List Opcode)
  | [], before_flag, begin_i, before_i, begin_j, before_j =>
      (append_opcode before_flag begin_i before_i begin_j before_j).map
        (fun oc => [oc])
  | op :: rest, before_flag, begin_i, before_i, begin_j, before_j =>
      if before_flag = op.1 then
        opcodes_loop rest before_flag begin_i op.2.1 begin_j op.2.2
      else
        match append_opcode before_flag begin_i before_i begin_j before_j with
        | none => none
        | some oc =>
            (opcodes_loop rest op.1 before_i op.2.1 before_j op.2.2).map
              (fun ops => oc :: ops)

/-- `__calc_opcodes`: `none` models the `IndexError` of
`self.__trace[0][0]` on an empty trace. -/
def calc_opcodes (a b : List ℕ) : Option (List Opcode) :=
  match calc_backtrace a b with
  | [] => none
  | t0 :: rest => opcodes_loop (t0 :: rest) t0.1 0 0 0 0

/-- `get_opcodes()`. -/
def get_opcodes (a b : List ℕ) : Option (List Opcode) := calc_opcodes a b

/-- The partition property of an opcode list: consecutive ranges are
contiguous on both sides, starting at `p` and ending at `q`. -/
def ops_chain : ℕ × ℕ → ℕ × ℕ → List Opcode → Prop
  | p, q, [] => p = q
  | p, q, oc :: rest =>
      oc.i1 = p.1 ∧ oc.j1 = p.2 ∧ oc.i1 ≤ oc.i2 ∧ oc.j1 ≤ oc.j2 ∧
        ops_chain (oc.i2, oc.j2) q rest

/-- Every `equal` opcode covers ranges of one common length whose
elements agree pairwise. -/
def ops_equal_aligned (a b : List ℕ) (ops : List Opcode) : Prop :=
  ∀ oc ∈ ops, oc.tag = OpTag.equal →
    oc.i2 - oc.i1 = oc.j2 - oc.j1 ∧
      ∀ k, k < oc.i2 - oc.i1 → a.getD (oc.i1 + k) 0 = b.getD (oc.j1 + k) 0

/-! ### The backward walk as a step-by-step alignment path

`TraceFT a b p q T` says: `T` is a chronological trace of alignment
steps leading from cell `p` to cell `q`, each record being exactly what
`__calc_backtrace` appends for that step (diagonal records carry
`cost == 0` as their flag; insert and delete records carry `False`). -/

inductive TraceFT (a b : List ℕ) : ℕ × ℕ → ℕ × ℕ → List (Bool × ℕ × ℕ) → Prop
  | nil (p : ℕ × ℕ) : TraceFT a b p p []
  | diag (i j : ℕ) (q : ℕ × ℕ) (T : List (Bool × ℕ × ℕ)) :
      TraceFT a b (i + 1, j + 1) q T →
      TraceFT a b (i, j) q
        ((decide (cost_at a b i j = 0), i + 1, j + 1) :: T)
  | ins (i j : ℕ) (q : ℕ × ℕ) (T : List (Bool × ℕ × ℕ)) :
      TraceFT a b (i, j + 1) q T →
      TraceFT a b (i, j) q ((false, i, j + 1) :: T)
  | del (i j : ℕ) (q : ℕ × ℕ) (T : List (Bool × ℕ × ℕ)) :
      TraceFT a b (i + 1, j) q T →
      TraceFT a b (i, j) q ((false, i + 1, j) :: T)

theorem TraceFT.append {a b : List ℕ} {p q r : ℕ × ℕ}
    {T T' : List (Bool × ℕ × ℕ)} (h1 : TraceFT a b p q T)
    (h2 : TraceFT a b q r T') : TraceFT a b p r (T ++ T') := by
  induction h1 with
  | nil p => exact h2
  | diag i j q T _ ih => exact TraceFT.diag i j r _ (ih h2)
  | ins i j q T _ ih => exact TraceFT.ins i j r _ (ih h2)
  | del i j q T _ ih => exact TraceFT.del i j r _ (ih h2)

theorem trace_ins_ft (a b : List ℕ) : ∀ j : ℕ,
    TraceFT a b (0, 0) (0, j) (trace_ins j).reverse
  | 0 => TraceFT.nil (0, 0)
  | j + 1 => by
    have step : TraceFT a b (0, j) (0, j + 1) [(false, 0, j + 1)] :=
      TraceFT.ins 0 j (0, j + 1) [] (TraceFT.nil _)
    simpa [trace_ins] using (trace_ins_ft a b j).append step

theorem trace_back_ft (a b : List ℕ) : ∀ i j : ℕ,
    TraceFT a b (0, 0) (i, j) (trace_back a b i j).reverse
  | 0, j => trace_ins_ft a b j
  | i + 1, 0 => by
    have step : TraceFT a b (i, 0) (i + 1, 0) [(false, i + 1, 0)] :=
      TraceFT.del i 0 (i + 1, 0) [] (TraceFT.nil _)
    simpa [trace_back, trace_row] using (trace_back_ft a b i 0).append step
  | i + 1, j + 1 => by
    show TraceFT a b (0, 0) (i + 1, j + 1)
      (trace_row a b (trace_back a b i) i (j + 1)).reverse
    rw [trace_row]
    by_cases h1 :
        calc_dp a b (i + 1) (j + 1) = calc_dp a b i j + cost_at a b i j
    · rw [if_pos h1]
      have step : TraceFT a b (i, j) (i + 1, j + 1)
          [(decide (cost_at a b i j = 0), i + 1, j + 1)] :=
        TraceFT.diag i j (i + 1, j + 1) [] (TraceFT.nil _)
      simpa using (trace_back_ft a b i j).append step
    · rw [if_neg h1]
      by_cases h2 : calc_dp a b (i + 1) (j + 1) =
          calc_dp a b (i + 1) j + cost_insert
      · rw [if_pos h2]
        have step : TraceFT a b (i + 1, j) (i + 1, j + 1)
            [(false, i + 1, j + 1)] :=
          TraceFT.ins (i + 1) j (i + 1, j + 1) [] (TraceFT.nil _)
        have ih : TraceFT a b (0, 0) (i + 1, j)
            (trace_row a b (trace_back a b i) i j).reverse :=
          trace_back_ft a b (i + 1) j
        simpa using ih.append step
      · rw [if_neg h2]
        have h3 : calc_dp a b (i + 1) (j + 1) =
            calc_dp a b i (j + 1) + cost_delete := by
          rcases calc_dp_move_exists a b i j with h | h | h
          · exact absurd h h1
          · exact absurd h h2
          · exact h
        rw [if_pos h3]
        have step : TraceFT a b (i, j + 1) (i + 1, j + 1)
            [(false, i + 1, j + 1)] :=
          TraceFT.del i (j + 1) (i + 1, j + 1) [] (TraceFT.nil _)
        simpa using (trace_back_ft a b i (j + 1)).append step
termination_by i j => i + j

/-- The backward walk is empty only from cell `(0, 0)`: every other
start appends at least one record. -/
theorem trace_back_ne_nil (a b : List ℕ) (i j : ℕ) (h : ¬(i = 0 ∧ j = 0)) :
    trace_back a b i j ≠ [] := by
  match i, j with
  | 0, 0 => exact absurd ⟨rfl, rfl⟩ h
  | 0, j + 1 => simp [trace_back, trace_ins]
  | i + 1, 0 => simp [trace_back, trace_row]
  | i + 1, j + 1 =>
    show trace_row a b (trace_back a b i) i (j + 1) ≠ []
    rw [trace_row]
    rcases calc_dp_move_exists a b i j with h1 | h2 | h3
    · rw [if_pos h1]; simp
    · by_cases h1 : calc_dp a b (i + 1) (j + 1) =
          calc_dp a b i j + cost_at a b i j
      · rw [if_pos h1]; simp
      · rw [if_neg h1, if_pos h2]; simp
    · by_cases h1 : calc_dp a b (i + 1) (j + 1) =
          calc_dp a b i j + cost_at a b i j
      · rw [if_pos h1]; simp
      · rw [if_neg h1]
        by_cases h2 : calc_dp a b (i + 1) (j + 1) =
            calc_dp a b (i + 1) j + cost_insert
        · rw [if_pos h2]; simp
        · rw [if_neg h2, if_pos h3]; simp

theorem append_opcode_true (gi bi gj bj : ℕ) :
    append_opcode true gi bi gj bj =
      some ⟨OpTag.equal, gi, bi, gj, bj⟩ := rfl

theorem append_opcode_false (gi bi gj bj : ℕ) (h1 : gi ≤ bi) (h2 : gj ≤ bj)
    (h3 : ¬(gi = bi ∧ gj = bj)) :
    ∃ oc : Opcode, append_opcode false gi bi gj bj = some oc ∧
      oc.tag ≠ OpTag.equal ∧
      oc.i1 = gi ∧ oc.i2 = bi ∧ oc.j1 = gj ∧ oc.j2 = bj := by
  unfold append_opcode
  rw [if_neg (by simp : ¬(false = true))]
  by_cases e1 : gi = bi
  · have e2 : gj < bj := by omega
    rw [if_pos ⟨e1, e2⟩]
    exact ⟨_, rfl, by simp, rfl, rfl, rfl, rfl⟩
  · have e1' : gi < bi := by omega
    rw [if_neg (by omega : ¬(gi = bi ∧ gj < bj))]
    by_cases e2 : gj = bj
    · rw [if_pos ⟨e1', e2⟩]
      exact ⟨_, rfl, by simp, rfl, rfl, rfl, rfl⟩
    · have e2' : gj < bj := by omega
      rw [if_neg (by omega : ¬(gi < bi ∧ gj = bj)), if_pos ⟨e1', e2'⟩]
      exact ⟨_, rfl, by simp, rfl, rfl, rfl, rfl⟩

theorem cost_at_zero_iff (a b : List ℕ) (i j : ℕ) :
    cost_at a b i j = 0 ↔ a.getD i 0 = b.getD j 0 := by
  unfold cost_at cost_replace
  split <;> simp_all


theorem opcodes_loop_nil (bf : Bool) (gi bi gj bj : ℕ) :
    opcodes_loop [] bf gi bi gj bj =
      (append_opcode bf gi bi gj bj).map (fun oc => [oc]) := rfl

theorem opcodes_loop_cons (op : Bool × ℕ × ℕ) (rest : List (Bool × ℕ × ℕ))
    (bf : Bool) (gi bi gj bj : ℕ) :
    opcodes_loop (op :: rest) bf gi bi gj bj =
      if bf = op.1 then
        opcodes_loop rest bf gi op.2.1 gj op.2.2
      else
        match append_opcode bf gi bi gj bj with
        | none => none
        | some oc =>
            (opcodes_loop rest op.1 bi op.2.1 bj op.2.2).map
              (fun ops => oc :: ops) := rfl

/-- Main loop invariant of `__calc_opcodes`: running the coalescing
loop over a valid trace from `p` to `q`, with loop state
`(bf, gi, p.1, gj, p.2)` such that the open run covers `[gi, p.1)` /
`[gj, p.2)` (aligned elementwise if its flag `bf` is `true`, nonempty
if `false`), produces a chained opcode list from `(gi, gj)` to `q`. -/
theorem opcodes_loop_spec (a b : List ℕ)
    (T : List (Bool × ℕ × ℕ)) (p q : ℕ × ℕ) (hT : TraceFT a b p q T) :
    ∀ (bf : Bool) (gi gj : ℕ),
    gi ≤ p.1 → gj ≤ p.2 →
    (bf = false → ¬(gi = p.1 ∧ gj = p.2)) →
    (bf = true → p.1 - gi = p.2 - gj ∧
      ∀ k, k < p.1 - gi → a.getD (gi + k) 0 = b.getD (gj + k) 0) →
    ∃ ops, opcodes_loop T bf gi p.1 gj p.2 = some ops ∧
      ops_chain (gi, gj) q ops ∧ ops ≠ [] ∧ ops_equal_aligned a b ops := by
  induction hT with
  | nil p =>
    intro bf gi gj hgi hgj hfalse htrue
    cases bf with
    | true =>
      refine ⟨[⟨OpTag.equal, gi, p.1, gj, p.2⟩], ?_, ?_, by simp, ?_⟩
      · rw [opcodes_loop_nil, append_opcode_true]
        rfl
      · exact ⟨rfl, rfl, hgi, hgj, Prod.mk.eta⟩
      · intro oc hoc _
        simp only [List.mem_singleton] at hoc
        subst hoc
        exact (htrue rfl)
    | false =>
      obtain ⟨oc, hoc, htag, e1, e2, e3, e4⟩ :=
        append_opcode_false gi p.1 gj p.2 hgi hgj (hfalse rfl)
      refine ⟨[oc], ?_, ?_, by simp, ?_⟩
      · rw [opcodes_loop_nil, hoc]
        rfl
      · refine ⟨e1, e3, by omega, by omega, ?_⟩
        show (oc.i2, oc.j2) = p
        rw [e2, e4]
      · intro oc' hoc' htag'
        simp only [List.mem_singleton] at hoc'
        subst hoc'
        exact absurd htag' htag
  | diag i j q T h ih =>
    intro bf gi gj hgi hgj hfalse htrue
    replace hgi : gi ≤ i := hgi
    replace hgj : gj ≤ j := hgj
    replace hfalse : bf = false → ¬(gi = i ∧ gj = j) := hfalse
    replace htrue : bf = true → i - gi = j - gj ∧
      ∀ k, k < i - gi → a.getD (gi + k) 0 = b.getD (gj + k) 0 := htrue
    have hgoal :
        opcodes_loop ((decide (cost_at a b i j = 0), i + 1, j + 1) :: T)
            bf gi i gj j =
          if bf = decide (cost_at a b i j = 0) then
            opcodes_loop T bf gi (i + 1) gj (j + 1)
          else
            match append_opcode bf gi i gj j with
            | none => none
            | some oc =>
                (opcodes_loop T (decide (cost_at a b i j = 0))
                    i (i + 1) j (j + 1)).map (fun ops => oc :: ops) :=
      opcodes_loop_cons _ _ _ _ _ _ _
    by_cases hbf : bf = decide (cost_at a b i j = 0)
    · rw [if_pos hbf] at hgoal
      have hres := ih bf gi gj (show gi ≤ i + 1 by omega)
        (show gj ≤ j + 1 by omega)
        (by
          intro _
          show ¬(gi = i + 1 ∧ gj = j + 1)
          omega)
        (by
          intro hb
          have hcost : a.getD i 0 = b.getD j 0 := by
            rw [hb] at hbf
            exact (cost_at_zero_iff a b i j).mp (of_decide_eq_true hbf.symm)
          obtain ⟨hlen, helt⟩ := htrue hb
          refine ⟨show (i + 1) - gi = (j + 1) - gj by omega, ?_⟩
          intro k hk
          replace hk : k < (i + 1) - gi := hk
          rcases Nat.lt_or_ge k (i - gi) with hk' | hk'
          · exact helt k hk'
          · have e1 : gi + k = i := by omega
            have e2 : gj + k = j := by omega
            rw [e1, e2]
            exact hcost)
      obtain ⟨ops, hops, hchain, hne, halig⟩ := hres
      have hops' : opcodes_loop T bf gi (i + 1) gj (j + 1) = some ops := hops
      exact ⟨ops, by rw [hgoal, hops'], hchain, hne, halig⟩
    · rw [if_neg hbf] at hgoal
      have hemit : ∃ oc : Opcode,
          append_opcode bf gi i gj j = some oc ∧
          oc.i1 = gi ∧ oc.i2 = i ∧ oc.j1 = gj ∧ oc.j2 = j ∧
          (oc.tag = OpTag.equal →
            oc.i2 - oc.i1 = oc.j2 - oc.j1 ∧
            ∀ k, k < oc.i2 - oc.i1 →
              a.getD (oc.i1 + k) 0 = b.getD (oc.j1 + k) 0) := by
        cases bf with
        | true =>
          obtain ⟨hlen, helt⟩ := htrue rfl
          exact ⟨_, append_opcode_true gi i gj j, rfl, rfl, rfl, rfl,
            fun _ => ⟨hlen, helt⟩⟩
        | false =>
          obtain ⟨oc, hoc, htag, e1, e2, e3, e4⟩ :=
            append_opcode_false gi i gj j hgi hgj (hfalse rfl)
          exact ⟨oc, hoc, e1, e2, e3, e4, fun hc => absurd hc htag⟩
      obtain ⟨oc, hoc, e1, e2, e3, e4, haligned⟩ := hemit
      have hres := ih (decide (cost_at a b i j = 0)) i j
        (show i ≤ i + 1 by omega) (show j ≤ j + 1 by omega)
        (by
          intro _
          show ¬(i = i + 1 ∧ j = j + 1)
          omega)
        (by
          intro hb
          have hcost : a.getD i 0 = b.getD j 0 :=
            (cost_at_zero_iff a b i j).mp (of_decide_eq_true hb)
          refine ⟨show (i + 1) - i = (j + 1) - j by omega, ?_⟩
          intro k hk
          replace hk : k < (i + 1) - i := hk
          have ek : k = 0 := by omega
          subst ek
          simpa using hcost)
      obtain ⟨ops', hops, hchain', hne', haligned'⟩ := hres
      have hops' : opcodes_loop T (decide (cost_at a b i j = 0))
          i (i + 1) j (j + 1) = some ops' := hops
      refine ⟨oc :: ops', ?_, ?_, by simp, ?_⟩
      · rw [hgoal, hoc, hops']
        rfl
      · exact ⟨e1, e3, by omega, by omega, by rw [e2, e4]; exact hchain'⟩
      · intro oc' hoc' htag'
        rcases List.mem_cons.mp hoc' with rfl | hmem
        · exact haligned htag'
        · exact haligned' oc' hmem htag'
  | ins i j q T h ih =>
    intro bf gi gj hgi hgj hfalse htrue
    replace hgi : gi ≤ i := hgi
    replace hgj : gj ≤ j := hgj
    replace hfalse : bf = false → ¬(gi = i ∧ gj = j) := hfalse
    replace htrue : bf = true → i - gi = j - gj ∧
      ∀ k, k < i - gi → a.getD (gi + k) 0 = b.getD (gj + k) 0 := htrue
    have hgoal :
        opcodes_loop ((false, i, j + 1) :: T) bf gi i gj j =
          if bf = false then
            opcodes_loop T bf gi i gj (j + 1)
          else
            match append_opcode bf gi i gj j with
            | none => none
            | some oc =>
                (opcodes_loop T false i i j (j + 1)).map
                  (fun ops => oc :: ops) :=
      opcodes_loop_cons _ _ _ _ _ _ _
    cases bf with
    | false =>
      rw [if_pos rfl] at hgoal
      have hres := ih false gi gj (show gi ≤ i by omega)
        (show gj ≤ j + 1 by omega)
        (by
          intro _
          show ¬(gi = i ∧ gj = j + 1)
          omega)
        (by intro hc; cases hc)
      obtain ⟨ops, hops, hchain, hne, halig⟩ := hres
      have hops' : opcodes_loop T false gi i gj (j + 1) = some ops := hops
      exact ⟨ops, by rw [hgoal, hops'], hchain, hne, halig⟩
    | true =>
      rw [if_neg (by simp)] at hgoal
      obtain ⟨hlen, helt⟩ := htrue rfl
      have hres := ih false i j (show i ≤ i by omega)
        (show j ≤ j + 1 by omega)
        (by
          intro _
          show ¬(i = i ∧ j = j + 1)
          omega)
        (by intro hc; cases hc)
      obtain ⟨ops', hops, hchain', hne', haligned'⟩ := hres
      have hops' : opcodes_loop T false i i j (j + 1) = some ops' := hops
      refine ⟨⟨OpTag.equal, gi, i, gj, j⟩ :: ops', ?_, ?_, by simp, ?_⟩
      · rw [hgoal, append_opcode_true, hops']
        rfl
      · exact ⟨rfl, rfl, hgi, hgj, hchain'⟩
      · intro oc' hoc' htag'
        rcases List.mem_cons.mp hoc' with rfl | hmem
        · exact ⟨hlen, helt⟩
        · exact haligned' oc' hmem htag'
  | del i j q T h ih =>
    intro bf gi gj hgi hgj hfalse htrue
    replace hgi : gi ≤ i := hgi
    replace hgj : gj ≤ j := hgj
    replace hfalse : bf = false → ¬(gi = i ∧ gj = j) := hfalse
    replace htrue : bf = true → i - gi = j - gj ∧
      ∀ k, k < i - gi → a.getD (gi + k) 0 = b.getD (gj + k) 0 := htrue
    have hgoal :
        opcodes_loop ((false, i + 1, j) :: T) bf gi i gj j =
          if bf = false then
            opcodes_loop T bf gi (i + 1) gj j
          else
            match append_opcode bf gi i gj j with
            | none => none
            | some oc =>
                (opcodes_loop T false i (i + 1) j j).map
                  (fun ops => oc :: ops) :=
      opcodes_loop_cons _ _ _ _ _ _ _
    cases bf with
    | false =>
      rw [if_pos rfl] at hgoal
      have hres := ih false gi gj (show gi ≤ i + 1 by omega)
        (show gj ≤ j by omega)
        (by
          intro _
          show ¬(gi = i + 1 ∧ gj = j)
          omega)
        (by intro hc; cases hc)
      obtain ⟨ops, hops, hchain, hne, halig⟩ := hres
      have hops' : opcodes_loop T false gi (i + 1) gj j = some ops := hops
      exact ⟨ops, by rw [hgoal, hops'], hchain, hne, halig⟩
    | true =>
      rw [if_neg (by simp)] at hgoal
      obtain ⟨hlen, helt⟩ := htrue rfl
      have hres := ih false i j (show i ≤ i + 1 by omega)
        (show j ≤ j by omega)
        (by
          intro _
          show ¬(i = i + 1 ∧ j = j)
          omega)
        (by intro hc; cases hc)
      obtain ⟨ops', hops, hchain', hne', haligned'⟩ := hres
      have hops' : opcodes_loop T false i (i + 1) j j = some ops' := hops
      refine ⟨⟨OpTag.equal, gi, i, gj, j⟩ :: ops', ?_, ?_, by simp, ?_⟩
      · rw [hgoal, append_opcode_true, hops']
        rfl
      · exact ⟨rfl, rfl, hgi, hgj, hchain'⟩
      · intro oc' hoc' htag'
        rcases List.mem_cons.mp hoc' with rfl | hmem
        · exact ⟨hlen, helt⟩
        · exact haligned' oc' hmem htag'


/-- On a pair of sequences, at least one of them nonempty,
`get_opcodes()` succeeds and returns a chained opcode list whose
`equal` runs are elementwise aligned. -/
theorem get_opcodes_spec (a b : List ℕ) (h : a ≠ [] ∨ b ≠ []) :
    ∃ ops, get_opcodes a b = some ops ∧
      ops_chain (0, 0) (a.length, b.length) ops ∧
      ops_equal_aligned a b ops := by
  have hne : ¬(a.length = 0 ∧ b.length = 0) := by
    rcases h with h | h
    · intro hc
      exact h (List.length_eq_zero.mp hc.1)
    · intro hc
      exact h (List.length_eq_zero.mp hc.2)
  have hnn := trace_back_ne_nil a b a.length b.length hne
  have htr : TraceFT a b (0, 0) (a.length, b.length) (calc_backtrace a b) :=
    trace_back_ft a b a.length b.length
  rcases hcb : calc_backtrace a b with _ | ⟨t0, rest⟩
  · exfalso
    apply hnn
    have := congrArg List.reverse hcb
    simpa [calc_backtrace] using this
  · rw [hcb] at htr
    have hstart : get_opcodes a b =
        opcodes_loop rest t0.1 0 t0.2.1 0 t0.2.2 := by
      show calc_opcodes a b = _
      unfold calc_opcodes
      rw [hcb]
      show opcodes_loop (t0 :: rest) t0.1 0 0 0 0 = _
      rw [opcodes_loop_cons, if_pos rfl]
    generalize hq : ((a.length, b.length) : ℕ × ℕ) = q0 at htr
    clear hcb hnn hne h hq
    revert hstart
    cases htr with
    | diag =>
      rename_i h'
      intro hstart
      obtain ⟨ops, hops, hchain, hne', halig⟩ :=
        opcodes_loop_spec a b rest (0 + 1, 0 + 1) q0 h'
          (decide (cost_at a b 0 0 = 0)) 0 0
          (Nat.zero_le _) (Nat.zero_le _)
          (by
            intro _ hc
            have h1 : (0 : ℕ) = 0 + 1 := hc.1
            omega)
          (by
            intro hb
            have hcost : a.getD 0 0 = b.getD 0 0 :=
              (cost_at_zero_iff a b 0 0).mp (of_decide_eq_true hb)
            refine ⟨rfl, ?_⟩
            intro k hk
            have hk' : k < 1 := hk
            have hk0 : k = 0 := by omega
            subst hk0
            simpa using hcost)
      have hops' : opcodes_loop rest (decide (cost_at a b 0 0 = 0)) 0 (0 + 1)
          0 (0 + 1) = some ops := hops
      exact ⟨ops, hstart.trans hops', hchain, halig⟩
    | ins =>
      rename_i h'
      intro hstart
      obtain ⟨ops, hops, hchain, hne', halig⟩ :=
        opcodes_loop_spec a b rest (0, 0 + 1) q0 h'
          false 0 0
          (Nat.zero_le _) (Nat.zero_le _)
          (by
            intro _ hc
            have h2 : (0 : ℕ) = 0 + 1 := hc.2
            omega)
          (by intro hb; cases hb)
      have hops' : opcodes_loop rest false 0 0 0 (0 + 1) = some ops := hops
      exact ⟨ops, hstart.trans hops', hchain, halig⟩
    | del =>
      rename_i h'
      intro hstart
      obtain ⟨ops, hops, hchain, hne', halig⟩ :=
        opcodes_loop_spec a b rest (0 + 1, 0) q0 h'
          false 0 0
          (Nat.zero_le _) (Nat.zero_le _)
          (by
            intro _ hc
            have h1 : (0 : ℕ) = 0 + 1 := hc.1
            omega)
          (by intro hb; cases hb)
      have hops' : opcodes_loop rest false 0 (0 + 1) 0 0 = some ops := hops
      exact ⟨ops, hstart.trans hops', hchain, halig⟩

/-- **C1 (amended).** For every pair of sequences, at least one of them
nonempty, `get_opcodes()` returns an ordered opcode list that exactly
partitions `[0, len a)` and `[0, len b)`: the first opcode starts at
`(0, 0)`, each opcode's ranges begin where the previous opcode's ranges
end (no gaps, no overlaps), and the last opcode ends at
`(len a, len b)`.  With both sequences empty the Python raises
`IndexError` instead of returning a list (`none` in this model). -/
theorem get_opcodes_partition (a b : List ℕ) (h : a ≠ [] ∨ b ≠ []) :
    ∃ ops, get_opcodes a b = some ops ∧
      ops_chain (0, 0) (a.length, b.length) ops := by
  obtain ⟨ops, h1, h2, _⟩ := get_opcodes_spec a b h
  exact ⟨ops, h1, h2⟩

/-- **C1, counterexample to the unamended claim.** On the empty pair of
sequences `__calc_opcodes` evaluates `self.__trace[0][0]` on an empty
trace and raises `IndexError`: `get_opcodes` returns no opcode list at
all, contradicting "for every pair of input sequences". -/
theorem get_opcodes_empty_empty_none :
    get_opcodes ([] : List ℕ) ([] : List ℕ) = none := rfl

/-- Witness for `get_opcodes_partition` at `a = [0]`, `b = []`. -/
theorem get_opcodes_partition_witness :
    (([0] : List ℕ) ≠ [] ∨ ([] : List ℕ) ≠ []) ∧
    ∃ ops, get_opcodes [0] ([] : List ℕ) = some ops ∧
      ops_chain (0, 0) (([0] : List ℕ).length, ([] : List ℕ).length) ops :=
  ⟨Or.inl (by decide), get_opcodes_partition [0] [] (Or.inl (by decide))⟩

/-! ### C3: the backtrace tie-break priority -/

/-- The diagonal move out of cell `(i+1, j+1)` is cost-optimal. -/
def diag_move_optimal (a b : List ℕ) (i j : ℕ) : Prop :=
  calc_dp a b i j + cost_at a b i j ≤ calc_dp a b i (j + 1) + cost_delete ∧
  calc_dp a b i j + cost_at a b i j ≤ calc_dp a b (i + 1) j + cost_insert

/-- The horizontal (insert) move out of cell `(i+1, j+1)` is
cost-optimal. -/
def insert_move_optimal (a b : List ℕ) (i j : ℕ) : Prop :=
  calc_dp a b (i + 1) j + cost_insert ≤ calc_dp a b i (j + 1) + cost_delete ∧
  calc_dp a b (i + 1) j + cost_insert ≤ calc_dp a b i j + cost_at a b i j

/-- The vertical (delete) move out of cell `(i+1, j+1)` is
cost-optimal. -/
def delete_move_optimal (a b : List ℕ) (i j : ℕ) : Prop :=
  calc_dp a b i (j + 1) + cost_delete ≤ calc_dp a b (i + 1) j + cost_insert ∧
  calc_dp a b i (j + 1) + cost_delete ≤ calc_dp a b i j + cost_at a b i j

/-- **C3.** At every cell the backward walk resolves cost ties by the
fixed priority diagonal → horizontal (insert) → vertical (delete): if
the diagonal move is optimal it is taken (emitting the equality flag
`cost == 0`); otherwise if the horizontal move is optimal it is taken;
otherwise the vertical move is optimal and is taken.  The trace — and
hence the opcode boundaries on cost ties — is the unique list this
deterministic selection produces. -/
theorem backtrace_priority (a b : List ℕ) (i j : ℕ) :
    (diag_move_optimal a b i j →
      trace_back a b (i + 1) (j + 1) =
        (decide (cost_at a b i j = 0), i + 1, j + 1) :: trace_back a b i j) ∧
    (¬diag_move_optimal a b i j → insert_move_optimal a b i j →
      trace_back a b (i + 1) (j + 1) =
        (false, i + 1, j + 1) :: trace_back a b (i + 1) j) ∧
    (¬diag_move_optimal a b i j → ¬insert_move_optimal a b i j →
      delete_move_optimal a b i j ∧
      trace_back a b (i + 1) (j + 1) =
        (false, i + 1, j + 1) :: trace_back a b i (j + 1)) := by
  have hrec := calc_dp_succ_succ a b i j
  have hunf : trace_back a b (i + 1) (j + 1) =
      if calc_dp a b (i + 1) (j + 1) = calc_dp a b i j + cost_at a b i j then
        (decide (cost_at a b i j = 0), i + 1, j + 1) :: trace_back a b i j
      else if calc_dp a b (i + 1) (j + 1) =
          calc_dp a b (i + 1) j + cost_insert then
        (false, i + 1, j + 1) :: trace_back a b (i + 1) j
      else if calc_dp a b (i + 1) (j + 1) =
          calc_dp a b i (j + 1) + cost_delete then
        (false, i + 1, j + 1) :: trace_back a b i (j + 1)
      else [] := rfl
  refine ⟨?_, ?_, ?_⟩
  · intro hopt
    have c1 : calc_dp a b (i + 1) (j + 1) =
        calc_dp a b i j + cost_at a b i j := by
      unfold diag_move_optimal at hopt
      omega
    rw [hunf, if_pos c1]
  · intro hnd hins
    have c1' : ¬(calc_dp a b (i + 1) (j + 1) =
        calc_dp a b i j + cost_at a b i j) := by
      intro c1
      apply hnd
      unfold diag_move_optimal
      omega
    have c2 : calc_dp a b (i + 1) (j + 1) =
        calc_dp a b (i + 1) j + cost_insert := by
      unfold insert_move_optimal at hins
      omega
    rw [hunf, if_neg c1', if_pos c2]
  · intro hnd hni
    have c1' : ¬(calc_dp a b (i + 1) (j + 1) =
        calc_dp a b i j + cost_at a b i j) := by
      intro c1
      apply hnd
      unfold diag_move_optimal
      omega
    have c2' : ¬(calc_dp a b (i + 1) (j + 1) =
        calc_dp a b (i + 1) j + cost_insert) := by
      intro c2
      apply hni
      unfold insert_move_optimal
      omega
    have hdel : delete_move_optimal a b i j := by
      unfold diag_move_optimal at hnd
      unfold insert_move_optimal at hni
      unfold delete_move_optimal
      omega
    have c3 : calc_dp a b (i + 1) (j + 1) =
        calc_dp a b i (j + 1) + cost_delete := by
      unfold delete_move_optimal at hdel
      omega
    exact ⟨hdel, by rw [hunf, if_neg c1', if_neg c2', if_pos c3]⟩

/-! ### `smf_parse.py`: data model

`mbt_container` is the (measure, beat, tick) musical position with the
lexicographic order of `__lt__` and the componentwise equality of
`__eq__` (`@total_ordering` derives `<=` as `< or ==`). -/

structure mbt_container : Type where
  measure : ℕ
  beat : ℕ
  tick : ℕ
deriving DecidableEq, Repr

/-- `mbt_container.__lt__`: lexicographic on (measure, beat, tick). -/
def mbt_lt (x y : mbt_container) : Prop :=
  x.measure < y.measure ∨
    (x.measure = y.measure ∧
      (x.beat < y.beat ∨ (x.beat = y.beat ∧ x.tick < y.tick)))

instance (x y : mbt_container) : Decidable (mbt_lt x y) := by
  unfold mbt_lt
  infer_instance

/-- `__le__` as `@total_ordering` derives it: `x < y or x == y`. -/
def mbt_le (x y : mbt_container) : Prop := mbt_lt x y ∨ x = y

instance (x y : mbt_container) : Decidable (mbt_le x y) := by
  unfold mbt_le
  infer_instance

theorem mbt_eq_iff (x y : mbt_container) :
    x = y ↔ x.measure = y.measure ∧ x.beat = y.beat ∧ x.tick = y.tick := by
  cases x
  cases y
  simp [mbt_container.mk.injEq]

theorem not_mbt_lt_iff (x y : mbt_container) :
    ¬mbt_lt x y ↔ mbt_le y x := by
  unfold mbt_le mbt_lt
  rw [mbt_eq_iff]
  omega

theorem not_mbt_le_iff (x y : mbt_container) :
    ¬mbt_le x y ↔ mbt_lt y x := by
  unfold mbt_le mbt_lt
  rw [mbt_eq_iff]
  omega

/-- `note_event_container.type` (only `'note_on'` / `'note_off'` are
ever constructed). -/
inductive note_event_type : Type where
  | note_on : note_event_type
  | note_off : note_event_type
deriving DecidableEq, Repr

/-- `note_event_container`: kind, channel, pitch, velocity. -/
structure note_event_container : Type where
  type : note_event_type
  channel : ℕ
  note : ℕ
  velocity : ℕ
deriving DecidableEq, Repr

/-- `note_event_time_container`: absolute seconds, musical position,
event, absolute tick count. -/
structure note_event_time_container : Type where
  abs_time : ℚ
  mbt : mbt_container
  note_event : note_event_container
  abs_tick : ℕ
deriving DecidableEq, Repr

/-- `note_container`: a paired note-on / note-off. -/
structure note_container : Type where
  note_on : note_event_time_container
  note_off : note_event_time_container
deriving DecidableEq, Repr

/-! ### `mbt_calc`: the musical time model (claim C7) -/

/-- The state of the `mbt_calc` class. -/
structure mbt_calc : Type where
  tpqn : ℕ
  numerator : ℕ
  denominator : ℕ
  ticks_in_beat : ℕ
  mbt : mbt_container
  reset_next : Bool
deriving DecidableEq, Repr

/-- `mbt_calc.is_middle_of_measure`. -/
def is_middle_of_measure (s : mbt_calc) : Bool :=
  s.mbt.tick > 0 || s.mbt.beat > 0

/-- `mbt_calc.set_time_signature`: store the signature, recompute
`ticks_in_beat = int(tpqn*4/denominator)`, and — only when mid-measure —
raise the pending-reset flag.  The position itself is untouched. -/
def set_time_signature (s : mbt_calc) (numerator denominator : ℕ) :
    mbt_calc :=
  let s' : mbt_calc :=
    { s with
      numerator := numerator
      denominator := denominator
      ticks_in_beat := s.tpqn * 4 / denominator }
  if is_middle_of_measure s' then { s' with reset_next := true } else s'

/-- `mbt_calc.reset_to_next_measure`. -/
def reset_to_next_measure (s : mbt_calc) : mbt_calc :=
  { s with mbt := ⟨s.mbt.measure + 1, 0, 0⟩ }

/-- `mbt_calc.add_ticks`: a pending reset first snaps to the next
measure and clears the flag; then ticks roll into beats
(`ticks_in_beat` each) and beats into measures (`numerator` each). -/
def add_ticks (s : mbt_calc) (ticks : ℕ) : mbt_calc :=
  let s :=
    if s.reset_next then { reset_to_next_measure s with reset_next := false }
    else s
  let tick := s.mbt.tick + ticks
  let beat := s.mbt.beat + tick / s.ticks_in_beat
  let tick := tick % s.ticks_in_beat
  let measure := s.mbt.measure + beat / s.numerator
  let beat := beat % s.numerator
  { s with mbt := ⟨measure, beat, tick⟩ }

/-- `mbt_calc.__init__` with its default 4/4 signature: it calls
`set_time_signature` and then unconditionally clears `reset_next`. -/
def mbt_calc_init (tpqn : ℕ) : mbt_calc :=
  let s0 : mbt_calc :=
    { tpqn := tpqn, numerator := 4, denominator := 4, ticks_in_beat := 0,
      mbt := ⟨0, 0, 0⟩, reset_next := false }
  { set_time_signature s0 4 4 with reset_next := false }

/-- **C7.** Applying a time-signature change mid-measure (beat > 0 or
tick > 0) leaves the position unchanged at that instant and raises the
pending-reset flag; the next `add_ticks` behaves exactly as if it
started from the snapped position `(measure+1, 0, 0)` with the flag
clear, applying its delta under the new signature — in particular a
next advance of 0 ticks lands exactly on `(measure+1, 0, 0)`. -/
theorem set_time_signature_mid_measure (s : mbt_calc)
    (num den δ : ℕ) (h : s.mbt.beat > 0 ∨ s.mbt.tick > 0) :
    (set_time_signature s num den).mbt = s.mbt ∧
    (set_time_signature s num den).reset_next = true ∧
    add_ticks (set_time_signature s num den) δ =
      add_ticks
        { set_time_signature s num den with
          mbt := ⟨s.mbt.measure + 1, 0, 0⟩, reset_next := false } δ ∧
    (add_ticks (set_time_signature s num den) 0).mbt =
      ⟨s.mbt.measure + 1, 0, 0⟩ := by
  have hmid : is_middle_of_measure
      { s with
        numerator := num
        denominator := den
        ticks_in_beat := s.tpqn * 4 / den } = true := by
    unfold is_middle_of_measure
    simp only [Bool.or_eq_true, decide_eq_true_eq]
    omega
  have hset : set_time_signature s num den =
      { s with
        numerator := num
        denominator := den
        ticks_in_beat := s.tpqn * 4 / den
        reset_next := true } := by
    unfold set_time_signature
    rw [if_pos hmid]
  rw [hset]
  refine ⟨rfl, rfl, ?_, ?_⟩
  · unfold add_ticks reset_to_next_measure
    rfl
  · unfold add_ticks reset_to_next_measure
    simp

/-- The concrete time-model state of the spec's example: TPQN 480,
4/4, position (0, 2, 0). -/
def c7_state : mbt_calc := ⟨480, 4, 4, 480, ⟨0, 2, 0⟩, false⟩

/-- Witness for `set_time_signature_mid_measure`: position (0,2,0) in
4/4 with TPQN 480 changes to 3/4; the next advance starts from
(1,0,0). -/
theorem set_time_signature_mid_measure_witness :
    (c7_state.mbt.beat > 0 ∨ c7_state.mbt.tick > 0) ∧
    ((set_time_signature c7_state 3 4).mbt = c7_state.mbt ∧
      (set_time_signature c7_state 3 4).reset_next = true ∧
      add_ticks (set_time_signature c7_state 3 4) 480 =
        add_ticks
          { set_time_signature c7_state 3 4 with
            mbt := ⟨c7_state.mbt.measure + 1, 0, 0⟩, reset_next := false }
          480 ∧
      (add_ticks (set_time_signature c7_state 3 4) 0).mbt =
        ⟨c7_state.mbt.measure + 1, 0, 0⟩) :=
  ⟨Or.inl (by decide),
    set_time_signature_mid_measure c7_state 3 4 480 (Or.inl (by decide))⟩

/-! ### `smf_notes`: the note extractor (claim C5)

The merged, time-ordered track delivered by the MIDI-reading
collaborator (`mido.merge_tracks`) is modelled as a list of
`(delta_ticks, message)` pairs; messages the extractor ignores are
`other`.  The mido-1.2.10 `unknown_meta` workaround is a shim at the
reader boundary (it only removes messages the model never looks at), so
the stream is modelled after it. -/

inductive midi_message : Type where
  | set_tempo (tempo : ℕ) : midi_message
  | time_signature (numerator denominator : ℕ) : midi_message
  | note_on (channel note velocity : ℕ) : midi_message
  | note_off (channel note velocity : ℕ) : midi_message
  | other : midi_message
deriving DecidableEq, Repr

/-- `mido.tick2second(ticks, tpqn, tempo)` = `ticks·tempo/tpqn` µs. -/
def tick2second (ticks tpqn tempo : ℕ) : ℚ :=
  ((ticks : ℚ) * tempo) / ((tpqn : ℚ) * 1000000)

/-- `smf_notes.DEFAULT_TEMPO`. -/
def DEFAULT_TEMPO : ℕ := 500000

/-- The result of `__create_note_on_off`: its success boolean, the
note-on/off list, and `end_of_smf = (abs_time, mbt, abs_tick)`. -/
structure on_off_result : Type where
  ok : Bool
  note_on_off : List note_event_time_container
  end_of_smf : ℚ × mbt_container × ℕ

/-- The message loop of `__create_note_on_off`, with its running state
(tempo, absolute seconds, `mbt_calc`, absolute ticks, the list, and the
true note-on / note-off counters). -/
def create_note_on_off_loop (b_strict : Bool) (tpqn : ℕ) :
    List (ℕ × midi_message) → ℕ → ℚ → mbt_calc → ℕ →
    List note_event_time_container → ℕ → ℕ → on_off_result
  | [], _, abs_time, mbtc, abs_tick, lst, note_ons, note_offs =>
      { ok :=
          if note_ons ≠ note_offs ∨ note_ons + note_offs ≠ lst.length then
            if b_strict then false else true
          else true
        note_on_off := lst
        end_of_smf := (abs_time, mbtc.mbt, abs_tick) }
  | (time, msg) :: rest, tempo, abs_time, mbtc, abs_tick, lst, note_ons,
      note_offs =>
      let abs_time :=
        if time > 0 then abs_time + tick2second time tpqn tempo else abs_time
      let mbtc := if time > 0 then add_ticks mbtc time else mbtc
      let abs_tick := if time > 0 then abs_tick + time else abs_tick
      match msg with
      | midi_message.set_tempo t =>
          create_note_on_off_loop b_strict tpqn rest t abs_time mbtc abs_tick
            lst note_ons note_offs
      | midi_message.time_signature n d =>
          create_note_on_off_loop b_strict tpqn rest tempo abs_time
            (set_time_signature mbtc n d) abs_tick lst note_ons note_offs
      | midi_message.note_on ch nt vel =>
          create_note_on_off_loop b_strict tpqn rest tempo abs_time mbtc
            abs_tick
            (lst ++ [⟨abs_time, mbtc.mbt,
              ⟨note_event_type.note_on, ch, nt, vel⟩, abs_tick⟩])
            (if vel > 0 then note_ons + 1 else note_ons)
            (if vel = 0 then note_offs + 1 else note_offs)
      | midi_message.note_off ch nt vel =>
          create_note_on_off_loop b_strict tpqn rest tempo abs_time mbtc
            abs_tick
            (lst ++ [⟨abs_time, mbtc.mbt,
              ⟨note_event_type.note_off, ch, nt, vel⟩, abs_tick⟩])
            note_ons (note_offs + 1)
      | midi_message.other =>
          create_note_on_off_loop b_strict tpqn rest tempo abs_time mbtc
            abs_tick lst note_ons note_offs

/-- `__create_note_on_off`. -/
def create_note_on_off (b_strict : Bool) (tpqn : ℕ)
    (track : List (ℕ × midi_message)) : on_off_result :=
  create_note_on_off_loop b_strict tpqn track DEFAULT_TEMPO 0
    (mbt_calc_init tpqn) 0 [] 0 0

/-- A true note-on (`note_on` with velocity > 0). -/
def is_true_on (e : note_event_container) : Bool :=
  e.type = note_event_type.note_on && e.velocity > 0

/-- A true note-off (`note_off`, or `note_on` with velocity 0). -/
def is_true_off (e : note_event_container) : Bool :=
  e.type = note_event_type.note_off ||
    (e.type = note_event_type.note_on && e.velocity = 0)

/-- The inner `for j in range(i+1, len)` search of `__create_notes`:
the first not-yet-consumed true note-off after index `i` with the same
channel and pitch. -/
def find_note_off (indexed : List (ℕ × note_event_time_container))
    (combined : List ℕ) (ev : note_event_container) (i : ℕ) :
    Option (ℕ × note_event_time_container) :=
  (indexed.drop (i + 1)).find? fun je =>
    decide (je.1 ∉ combined) && is_true_off je.2.note_event &&
      decide (ev.channel = je.2.note_event.channel) &&
      decide (ev.note = je.2.note_event.note)

/-- The outer loop of `__create_notes` over the indexed note-on/off
list, threading the consumed-off index list and the note list; `none`
models the strict-mode `return False` exits. -/
def create_notes_loop (b_strict : Bool)
    (indexed : List (ℕ × note_event_time_container))
    (eos : ℚ × mbt_container × ℕ) :
    List (ℕ × note_event_time_container) → List ℕ → List note_container →
    Option (List ℕ × List note_container)
  | [], combined, notes => some (combined, notes)
  | (i, ev) :: rest, combined, notes =>
      let step1 : Option (List ℕ × List note_container) :=
        if is_true_on ev.note_event then
          match find_note_off indexed combined ev.note_event i with
          | some je => some (combined ++ [je.1], notes ++ [⟨ev, je.2⟩])
          | none =>
              if b_strict then none
              else
                some (combined, notes ++
                  [⟨ev, ⟨eos.1, eos.2.1,
                    ⟨note_event_type.note_off, ev.note_event.channel,
                      ev.note_event.note, 0⟩, eos.2.2⟩⟩])
        else some (combined, notes)
      match step1 with
      | none => none
      | some (combined, notes) =>
          if is_true_off ev.note_event && decide (i ∉ combined) then
            if b_strict then none
            else create_notes_loop b_strict indexed eos rest combined notes
          else create_notes_loop b_strict indexed eos rest combined notes

/-- `__create_notes`: its success boolean (the built note list is kept
in the loop result; only the boolean matters to `__process_smf`). -/
def create_notes (b_strict : Bool) (arr : List note_event_time_container)
    (eos : ℚ × mbt_container × ℕ) : Bool :=
  match create_notes_loop b_strict arr.enum eos arr.enum [] [] with
  | none => false
  | some (_, notes) =>
      if arr.length ≠ notes.length * 2 then
        if b_strict then false else true
      else true

/-- `__process_smf`: reject SMF types other than 0/1, then build the
note-on/off list and the note list. -/
def process_smf (b_strict : Bool) (smf_type : ℤ) (tpqn : ℕ)
    (track : List (ℕ × midi_message)) : Bool :=
  if smf_type < 0 ∨ smf_type > 1 then false
  else
    let r := create_note_on_off b_strict tpqn track
    if !r.ok then false
    else create_notes b_strict r.note_on_off r.end_of_smf

/-- **C5, counterexample.** With the strict flag off, loading an SMF of
type 2 still fails: the type gate of `__process_smf` returns `False`
before the strict flag is ever consulted, contradicting the claim that
a non-0/1 type is only a warning when strict is off. -/
theorem process_smf_type2_nonstrict_fails :
    process_smf false 2 480 [] = false := by decide

/-- **C5 (amended).** An SMF type other than 0 or 1 makes the load step
fail unconditionally — with the strict flag set or not; the strict flag
governs only the note-pairing consistency checks. -/
theorem process_smf_bad_type_always_fails (b_strict : Bool) (smf_type : ℤ)
    (tpqn : ℕ) (track : List (ℕ × midi_message))
    (h : smf_type < 0 ∨ 1 < smf_type) :
    process_smf b_strict smf_type tpqn track = false := by
  unfold process_smf
  rw [if_pos h]

/-- Witness for `process_smf_bad_type_always_fails` at type 2, strict
on. -/
theorem process_smf_bad_type_witness :
    ((2 : ℤ) < 0 ∨ (1 : ℤ) < 2) ∧ process_smf true 2 480 [] = false :=
  ⟨Or.inr (by decide),
    process_smf_bad_type_always_fails true 2 480 [] (Or.inr (by decide))⟩

/-! ### `smf_sort_poly.py`: the polyphonic sorter (claims C6, C10)

`sort_poly.sorted` pops notes in order, groups notes whose onset lies
within `max_misalignment` seconds of the group's first onset, and
flushes each group sorted by ascending pitch (`list.sort(key=...)` is a
stable ascending sort, modelled by `List.insertionSort` on the same
key order; octave reduction sorts by the tuple key
`(pitch % 12, pitch)` compared lexicographically, as Python compares
tuples). -/

def DEFAULT_MAX_MISALIGNMENT : ℚ := 5 / 100

/-- `sort_poly.__poly_sort_key`. -/
def poly_sort_key (n : note_container) : ℕ := n.note_on.note_event.note

/-- `sort_poly.__poly_sort_octave_reduction_key`. -/
def poly_sort_octave_reduction_key (n : note_container) : ℕ × ℕ :=
  (n.note_on.note_event.note % 12, n.note_on.note_event.note)

/-- Python's lexicographic tuple comparison on pairs of naturals. -/
def pair_lex_le (a b : ℕ × ℕ) : Prop :=
  a.1 < b.1 ∨ (a.1 = b.1 ∧ a.2 ≤ b.2)

instance (a b : ℕ × ℕ) : Decidable (pair_lex_le a b) := by
  unfold pair_lex_le
  infer_instance

/-- `sort_poly.__flush_poly_notes`: sort the simultaneous group by
ascending (possibly octave-reduced) pitch. -/
def flush_poly_notes (b_octave_reduction : Bool)
    (poly_notes : List note_container) : List note_container :=
  if b_octave_reduction then
    poly_notes.insertionSort fun m n =>
      pair_lex_le (poly_sort_octave_reduction_key m)
        (poly_sort_octave_reduction_key n)
  else
    poly_notes.insertionSort fun m n => poly_sort_key m ≤ poly_sort_key n

/-- The `while len(self.notes) > 0` loop of `sort_poly.sorted`: pop the
first note; if the current group is nonempty and the popped note's
onset exceeds the group's first onset by more than `max_misalignment`,
flush the group; then append the note to the group.  The final group is
flushed at end of input. -/
def sort_poly_sorted_loop (max_misalignment : ℚ) (b_octave_reduction : Bool) :
    List note_container → List note_container → List note_container
  | [], poly_notes => flush_poly_notes b_octave_reduction poly_notes
  | note :: rest, poly_notes =>
      if 0 < poly_notes.length ∧
          note.note_on.abs_time - (poly_notes.headD note).note_on.abs_time >
            max_misalignment then
        flush_poly_notes b_octave_reduction poly_notes ++
          sort_poly_sorted_loop max_misalignment b_octave_reduction rest
            [note]
      else
        sort_poly_sorted_loop max_misalignment b_octave_reduction rest
          (poly_notes ++ [note])

/-- `sort_poly.sorted`. -/
def sort_poly_sorted (max_misalignment : ℚ) (b_octave_reduction : Bool)
    (notes : List note_container) : List note_container :=
  sort_poly_sorted_loop max_misalignment b_octave_reduction notes []

theorem flush_poly_notes_perm (b : Bool) (poly : List note_container) :
    (flush_poly_notes b poly).Perm poly := by
  unfold flush_poly_notes
  cases b
  · simpa using List.perm_insertionSort _ poly
  · simpa using List.perm_insertionSort _ poly

theorem sort_poly_sorted_loop_perm (mm : ℚ) (b : Bool) :
    ∀ (notes poly : List note_container),
      (sort_poly_sorted_loop mm b notes poly).Perm (poly ++ notes)
  | [], poly => by
    simpa using flush_poly_notes_perm b poly
  | note :: rest, poly => by
    rw [sort_poly_sorted_loop]
    split
    · have h1 := flush_poly_notes_perm b poly
      have h2 := sort_poly_sorted_loop_perm mm b rest [note]
      exact (h1.append h2).trans (List.Perm.refl _)
    · have h2 := sort_poly_sorted_loop_perm mm b rest (poly ++ [note])
      simpa [List.append_assoc] using h2

/-- **C10.** `sort_poly.sorted` returns a permutation of its input:
grouping and flushing reorder notes but never drop or duplicate one. -/
theorem sort_poly_sorted_perm (mm : ℚ) (b_octave_reduction : Bool)
    (notes : List note_container) :
    (sort_poly_sorted mm b_octave_reduction notes).Perm notes := by
  simpa using sort_poly_sorted_loop_perm mm b_octave_reduction notes []

/-- A note of the spec's polyphonic-sort example: onset at `t` seconds
with the given pitch (offset data irrelevant to sorting). -/
def c6_note (t : ℚ) (pitch : ℕ) : note_container :=
  ⟨⟨t, ⟨0, 0, 0⟩, ⟨note_event_type.note_on, 0, pitch, 64⟩, 0⟩,
    ⟨t + 1, ⟨1, 0, 0⟩, ⟨note_event_type.note_off, 0, pitch, 0⟩, 0⟩⟩

/-- **C6, counterexample.** Sorting onsets 0.00, 0.01, 0.08 with
pitches [67, 60, 64] under tolerance 0.05 yields the pitch order
[60, 67, 64] — the first flushed group is [60, 67] and the separate
note at t = 0.08 has pitch 64, not the claimed first group
[60, 64, 67] followed by a pitch-67 group. -/
theorem sort_poly_example_counterexample :
    ((sort_poly_sorted (5 / 100) false
        [c6_note 0 67, c6_note (1 / 100) 60, c6_note (8 / 100) 64]).map
      poly_sort_key) = [60, 67, 64] ∧
    ((sort_poly_sorted (5 / 100) false
        [c6_note 0 67, c6_note (1 / 100) 60, c6_note (8 / 100) 64]).map
      poly_sort_key).take 3 ≠ [60, 64, 67] := by
  have h : sort_poly_sorted (5 / 100) false
      [c6_note 0 67, c6_note (1 / 100) 60, c6_note (8 / 100) 64] =
      [c6_note (1 / 100) 60, c6_note 0 67, c6_note (8 / 100) 64] := by
    rw [sort_poly_sorted, sort_poly_sorted_loop]
    rw [if_neg (by norm_num [c6_note])]
    rw [sort_poly_sorted_loop]
    rw [if_neg (by norm_num [c6_note])]
    rw [sort_poly_sorted_loop]
    rw [if_pos (by norm_num [c6_note])]
    rw [sort_poly_sorted_loop]
    norm_num [flush_poly_notes, List.insertionSort, List.orderedInsert,
      poly_sort_key, c6_note]
  rw [h]
  norm_num [poly_sort_key, c6_note]

/-- **C6 (amended).** Sorting the three notes with onsets 0.00, 0.01,
0.08 and pitches [67, 60, 64] under tolerance 0.05 merges the first two
notes into one group, flushed pitch-ascending as [60, 67], followed by
the separate single-note group of the pitch-64 note at t = 0.08. -/
theorem sort_poly_example_sorted :
    sort_poly_sorted (5 / 100) false
        [c6_note 0 67, c6_note (1 / 100) 60, c6_note (8 / 100) 64] =
      [c6_note (1 / 100) 60, c6_note 0 67, c6_note (8 / 100) 64] := by
  rw [sort_poly_sorted, sort_poly_sorted_loop]
  rw [if_neg (by norm_num [c6_note])]
  rw [sort_poly_sorted_loop]
  rw [if_neg (by norm_num [c6_note])]
  rw [sort_poly_sorted_loop]
  rw [if_pos (by norm_num [c6_note])]
  rw [sort_poly_sorted_loop]
  norm_num [flush_poly_notes, List.insertionSort, List.orderedInsert,
    poly_sort_key, c6_note]

/-! ### `smf_diff.py`: the extra-note container and its range query
(claim C4) -/

/-- `extra_note_container`: an extra (for-eval) note with its
model-side ambiguity interval `[mbt_before_extra, mbt_after_extra)`,
boundary flags, and the for-eval-side context. -/
structure extra_note_container : Type where
  note : note_container
  mbt_before_extra : mbt_container
  mbt_after_extra : mbt_container
  abs_tick_before_extra : ℕ
  abs_tick_after_extra : ℕ
  b_before_model_first : Bool
  b_after_model_last : Bool
  foreval_mbt_before_extra : Option mbt_container
  foreval_mbt_after_extra : Option mbt_container
  foreval_abs_tick_before_extra : Option ℕ
  foreval_abs_tick_after_extra : Option ℕ
deriving DecidableEq, Repr

/-- `smf_difference.get_extra_note_by_range`: keep an extra note unless
one of the four `continue` conditions of the source fires
(`mbt_before_extra < begin`, `mbt_after_extra <= begin`,
`end < mbt_after_extra`, `end <= mbt_before_extra`). -/
def get_extra_note_by_range (extra_note : List extra_note_container)
    (b e : Option mbt_container) : List extra_note_container :=
  extra_note.filter fun en =>
    (match b with
     | none => true
     | some bg =>
         !decide (mbt_lt en.mbt_before_extra bg) &&
           !decide (mbt_le en.mbt_after_extra bg)) &&
    (match e with
     | none => true
     | some ed =>
         !decide (mbt_lt ed en.mbt_after_extra) &&
           !decide (mbt_le ed en.mbt_before_extra))

/-- A concrete extra note whose ambiguity interval is
`[(0,0,0), (2,0,0))`. -/
def c4_extra : extra_note_container :=
  { note := c6_note 0 60
    mbt_before_extra := ⟨0, 0, 0⟩
    mbt_after_extra := ⟨2, 0, 0⟩
    abs_tick_before_extra := 0
    abs_tick_after_extra := 3840
    b_before_model_first := true
    b_after_model_last := false
    foreval_mbt_before_extra := none
    foreval_mbt_after_extra := none
    foreval_abs_tick_before_extra := none
    foreval_abs_tick_after_extra := none }

/-- **C4, counterexample.** The extra note with ambiguity interval
`[(0,0,0), (2,0,0))` overlaps the query range `[(1,0,0), (3,0,0))`
(its interval starts before the range's end and ends after the range's
start), yet `get_extra_note_by_range` does not return it: the query
must contain the interval, overlap does not suffice. -/
theorem get_extra_note_overlap_not_returned :
    mbt_lt c4_extra.mbt_before_extra ⟨3, 0, 0⟩ ∧
    mbt_lt ⟨1, 0, 0⟩ c4_extra.mbt_after_extra ∧
    get_extra_note_by_range [c4_extra] (some ⟨1, 0, 0⟩) (some ⟨3, 0, 0⟩)
      = [] :=
  ⟨by decide, by decide, rfl⟩

/-- **C4 (amended).** For a query range `[begin, end)`,
`get_extra_note_by_range` returns exactly those extra-note spans whose
ambiguity interval the query contains: `begin ≤ mbt_before_extra`,
`begin < mbt_after_extra`, `mbt_after_extra ≤ end` and
`mbt_before_extra < end` — containment, not mere overlap (as the
source's own docstring states: the interval must lie inside the
range). -/
theorem get_extra_note_by_range_containment
    (extra_note : List extra_note_container) (bg ed : mbt_container)
    (en : extra_note_container) :
    en ∈ get_extra_note_by_range extra_note (some bg) (some ed) ↔
      en ∈ extra_note ∧
        mbt_le bg en.mbt_before_extra ∧ mbt_lt bg en.mbt_after_extra ∧
        mbt_le en.mbt_after_extra ed ∧ mbt_lt en.mbt_before_extra ed := by
  unfold get_extra_note_by_range
  rw [List.mem_filter]
  simp only [Bool.and_eq_true, Bool.not_eq_true', decide_eq_false_iff_not,
    not_mbt_lt_iff, not_mbt_le_iff]
  tauto

/-! ### `smf_difference.calc_time_ratio` (claim C8) -/

/-- A default note (used only as the `headD`/`getLastD` default on
provably nonempty lists). -/
def nil_note : note_container :=
  ⟨⟨0, ⟨0, 0, 0⟩, ⟨note_event_type.note_on, 0, 0, 0⟩, 0⟩,
    ⟨0, ⟨0, 0, 0⟩, ⟨note_event_type.note_off, 0, 0, 0⟩, 0⟩⟩

/-- `smf_difference.calc_time_ratio`: `none` models the `math.nan`
returns (no matched notes, or coincident first/last model
positions). -/
def calc_time_ratio
    (matched_note_model matched_note_foreval : List note_container) :
    Option ℚ :=
  match matched_note_model, matched_note_foreval with
  | [], _ => none
  | _, [] => none
  | m0 :: ms, f0 :: fs =>
      let last_model := ms.getLastD m0
      let last_foreval := fs.getLastD f0
      if m0.note_on.mbt = last_model.note_on.mbt then none
      else
        some ((last_foreval.note_on.abs_time - f0.note_on.abs_time) /
          (last_model.note_on.abs_time - m0.note_on.abs_time))

/-- **C8.** With the matched lists index-aligned (equal lengths),
`calc_time_ratio()` is NaN (`none`) exactly when there are fewer than
two matched notes or the model-side first and last matched notes share
one musical position; otherwise it returns the for-eval elapsed time
between the first and last matched onsets divided by the model elapsed
time between them. -/
theorem calc_time_ratio_spec (mm mf : List note_container)
    (h : mm.length = mf.length) :
    (calc_time_ratio mm mf = none ↔
      mm.length < 2 ∨
        (mm.headD nil_note).note_on.mbt =
          (mm.getLastD nil_note).note_on.mbt) ∧
    (∀ r : ℚ, calc_time_ratio mm mf = some r →
      r = ((mf.getLastD nil_note).note_on.abs_time -
            (mf.headD nil_note).note_on.abs_time) /
          ((mm.getLastD nil_note).note_on.abs_time -
            (mm.headD nil_note).note_on.abs_time)) := by
  match mm, mf with
  | [], [] =>
    refine ⟨by simp [calc_time_ratio], ?_⟩
    intro r hr
    simp [calc_time_ratio] at hr
  | [], f0 :: fs =>
    simp at h
  | m0 :: ms, [] =>
    simp at h
  | m0 :: ms, f0 :: fs =>
    have hml : (m0 :: ms).getLastD nil_note = ms.getLastD m0 :=
      List.getLastD_cons nil_note m0 ms
    have hfl : (f0 :: fs).getLastD nil_note = fs.getLastD f0 :=
      List.getLastD_cons nil_note f0 fs
    have hunf : calc_time_ratio (m0 :: ms) (f0 :: fs) =
        if m0.note_on.mbt = (ms.getLastD m0).note_on.mbt then none
        else
          some (((fs.getLastD f0).note_on.abs_time - f0.note_on.abs_time) /
            ((ms.getLastD m0).note_on.abs_time - m0.note_on.abs_time)) := rfl
    by_cases hmbt : m0.note_on.mbt = (ms.getLastD m0).note_on.mbt
    · have hval : calc_time_ratio (m0 :: ms) (f0 :: fs) = none := by
        rw [hunf, if_pos hmbt]
      refine ⟨⟨fun _ => Or.inr ?_, fun _ => hval⟩, ?_⟩
      · show m0.note_on.mbt = ((m0 :: ms).getLastD nil_note).note_on.mbt
        rw [hml]
        exact hmbt
      · intro r hr
        rw [hval] at hr
        cases hr
    · have hval : calc_time_ratio (m0 :: ms) (f0 :: fs) =
          some (((fs.getLastD f0).note_on.abs_time - f0.note_on.abs_time) /
            ((ms.getLastD m0).note_on.abs_time - m0.note_on.abs_time)) := by
        rw [hunf, if_neg hmbt]
      have hms : ms ≠ [] := by
        intro hnil
        subst hnil
        exact hmbt rfl
      refine ⟨⟨fun hc => ?_, fun hc => ?_⟩, ?_⟩
      · rw [hval] at hc
        cases hc
      · exfalso
        rcases hc with hc | hc
        · have hlen : (m0 :: ms).length < 2 := hc
          apply hms
          cases ms with
          | nil => rfl
          | cons a l =>
            simp only [List.length_cons] at hlen
            exact absurd hlen (by omega)
        · apply hmbt
          have hx : m0.note_on.mbt =
              ((m0 :: ms).getLastD nil_note).note_on.mbt := hc
          rw [hml] at hx
          exact hx
      · intro r hr
        rw [hval] at hr
        injection hr with hr
        show r = (((f0 :: fs).getLastD nil_note).note_on.abs_time -
            ((f0 :: fs).headD nil_note).note_on.abs_time) /
          (((m0 :: ms).getLastD nil_note).note_on.abs_time -
            ((m0 :: ms).headD nil_note).note_on.abs_time)
        rw [hml, hfl]
        exact hr.symm

/-- The two concrete matched notes of the `calc_time_ratio` witness:
model onsets at measures 0 and 1. -/
def c8_note (measure : ℕ) (t : ℚ) : note_container :=
  ⟨⟨t, ⟨measure, 0, 0⟩, ⟨note_event_type.note_on, 0, 60, 64⟩, 0⟩,
    ⟨t + 1, ⟨measure, 1, 0⟩, ⟨note_event_type.note_off, 0, 60, 0⟩, 0⟩⟩

/-- Witness for `calc_time_ratio_spec` on two matched pairs. -/
theorem calc_time_ratio_spec_witness :
    ([c8_note 0 0, c8_note 1 2].length =
        [c8_note 0 1, c8_note 1 2].length) ∧
    ((calc_time_ratio [c8_note 0 0, c8_note 1 2] [c8_note 0 1, c8_note 1 2]
        = none ↔
      [c8_note 0 0, c8_note 1 2].length < 2 ∨
        (([c8_note 0 0, c8_note 1 2].headD nil_note).note_on.mbt =
          ([c8_note 0 0, c8_note 1 2].getLastD nil_note).note_on.mbt)) ∧
    (∀ r : ℚ, calc_time_ratio [c8_note 0 0, c8_note 1 2]
        [c8_note 0 1, c8_note 1 2] = some r →
      r = (([c8_note 0 1, c8_note 1 2].getLastD nil_note).note_on.abs_time -
            ([c8_note 0 1, c8_note 1 2].headD nil_note).note_on.abs_time) /
          (([c8_note 0 0, c8_note 1 2].getLastD nil_note).note_on.abs_time -
            ([c8_note 0 0, c8_note 1 2].headD nil_note).note_on.abs_time))) :=
  ⟨rfl, calc_time_ratio_spec [c8_note 0 0, c8_note 1 2]
    [c8_note 0 1, c8_note 1 2] rfl⟩

/-! ### `smf_difference.diff()`: the matched-note lists (claim C9)

`__make_diff_list` wraps each note in `note_for_diff_octave_strict` or
`note_for_diff_octave_reduction`; the matcher only ever compares their
hashes — the pitch, or the pitch mod 12.  A diff list is therefore
embedded as the list of those hashes (`note_hash`). -/

/-- The hash of `note_for_diff_octave_strict` (`hash(pitch)`) or of
`note_for_diff_octave_reduction` (`hash(pitch % 12)`): the chosen
comparison key of the diff. -/
def note_hash (b_octave_reduction : Bool) (n : note_container) : ℕ :=
  if b_octave_reduction then n.note_on.note_event.note % 12
  else n.note_on.note_event.note

/-- One opcode's effect of `diff()` on the matched-note state:
`'equal'` appends `model_diff[i1:i2]` to the matched-model list and
`foreval_diff[j1:j2]` to the matched-for-eval list
(`__matched_notes`); the other tags leave both lists unchanged
(they only feed the missing/extra lists). -/
def diff_matched_step (model_diff foreval_diff : List note_container)
    (acc : List note_container × List note_container) (oc : Opcode) :
    List note_container × List note_container :=
  match oc.tag with
  | OpTag.equal =>
      (acc.1 ++ (model_diff.drop oc.i1).take (oc.i2 - oc.i1),
        acc.2 ++ (foreval_diff.drop oc.j1).take (oc.j2 - oc.j1))
  | _ => acc

/-- The matched-model / matched-for-eval lists after `diff()` with the
strict (Levenshtein) matcher; `([], [])` models their state when
`get_opcodes` raises on two empty diff sequences (the lists were
cleared first). -/
def diff_matched (b_octave_reduction : Bool)
    (model_diff foreval_diff : List note_container) :
    List note_container × List note_container :=
  match get_opcodes (model_diff.map (note_hash b_octave_reduction))
      (foreval_diff.map (note_hash b_octave_reduction)) with
  | none => ([], [])
  | some ops =>
      ops.foldl (diff_matched_step model_diff foreval_diff) ([], [])

theorem ops_chain_le : ∀ (ops : List Opcode) (p q : ℕ × ℕ),
    ops_chain p q ops → p.1 ≤ q.1 ∧ p.2 ≤ q.2
  | [], p, q, h => by
    have hpq : p = q := h
    rw [hpq]
    exact ⟨le_rfl, le_rfl⟩
  | oc :: rest, p, q, h => by
    obtain ⟨h1, h2, h3, h4, h5⟩ := h
    have hrest := ops_chain_le rest (oc.i2, oc.j2) q h5
    have hr1 : oc.i2 ≤ q.1 := hrest.1
    have hr2 : oc.j2 ≤ q.2 := hrest.2
    omega

theorem ops_chain_bounds : ∀ (ops : List Opcode) (p q : ℕ × ℕ),
    ops_chain p q ops → ∀ oc ∈ ops,
      oc.i1 ≤ oc.i2 ∧ oc.j1 ≤ oc.j2 ∧ oc.i2 ≤ q.1 ∧ oc.j2 ≤ q.2
  | [], p, q, h => by
    intro oc hoc
    cases hoc
  | oc0 :: rest, p, q, h => by
    obtain ⟨h1, h2, h3, h4, h5⟩ := h
    intro oc hoc
    rcases List.mem_cons.mp hoc with rfl | hmem
    · have hle := ops_chain_le rest (oc.i2, oc.j2) q h5
      exact ⟨h3, h4, hle.1, hle.2⟩
    · exact ops_chain_bounds rest _ q h5 oc hmem

theorem note_hash_getD (b : Bool) (l : List note_container) (i : ℕ)
    (hi : i < l.length) :
    (l.map (note_hash b)).getD i 0 = note_hash b (l.getD i nil_note) := by
  have hi' : i < (l.map (note_hash b)).length := by simpa using hi
  rw [List.getD_eq_getElem _ _ hi', List.getD_eq_getElem _ _ hi,
    List.getElem_map]

theorem slice_forall₂ (b : Bool) (model_diff foreval_diff : List note_container)
    (s1 s2 n : ℕ) (h1 : s1 + n ≤ model_diff.length)
    (h2 : s2 + n ≤ foreval_diff.length)
    (helt : ∀ k, k < n →
      note_hash b (model_diff.getD (s1 + k) nil_note) =
        note_hash b (foreval_diff.getD (s2 + k) nil_note)) :
    List.Forall₂ (fun m f => note_hash b m = note_hash b f)
      ((model_diff.drop s1).take n) ((foreval_diff.drop s2).take n) := by
  rw [List.forall₂_iff_get]
  refine ⟨?_, ?_⟩
  · rw [List.length_take, List.length_take, List.length_drop,
      List.length_drop]
    omega
  · intro i hi1 hi2
    have hin : i < n := by
      rw [List.length_take] at hi1
      omega
    have hb1 : s1 + i < model_diff.length := by omega
    have hb2 : s2 + i < foreval_diff.length := by omega
    have e1 : ((model_diff.drop s1).take n).get ⟨i, hi1⟩ =
        model_diff.getD (s1 + i) nil_note := by
      rw [List.get_eq_getElem, List.getElem_take, List.getElem_drop,
        List.getD_eq_getElem _ _ hb1]
    have e2 : ((foreval_diff.drop s2).take n).get ⟨i, hi2⟩ =
        foreval_diff.getD (s2 + i) nil_note := by
      rw [List.get_eq_getElem, List.getElem_take, List.getElem_drop,
        List.getD_eq_getElem _ _ hb2]
    rw [e1, e2]
    exact helt i hin

theorem diff_fold_spec (b : Bool)
    (model_diff foreval_diff : List note_container) :
    ∀ (ops : List Opcode) (acc : List note_container × List note_container),
    (∀ oc ∈ ops,
      (oc.i1 ≤ oc.i2 ∧ oc.j1 ≤ oc.j2 ∧ oc.i2 ≤ model_diff.length ∧
        oc.j2 ≤ foreval_diff.length) ∧
      (oc.tag = OpTag.equal →
        oc.i2 - oc.i1 = oc.j2 - oc.j1 ∧
        ∀ k, k < oc.i2 - oc.i1 →
          (model_diff.map (note_hash b)).getD (oc.i1 + k) 0 =
            (foreval_diff.map (note_hash b)).getD (oc.j1 + k) 0)) →
    List.Forall₂ (fun m f => note_hash b m = note_hash b f) acc.1 acc.2 →
    List.Forall₂ (fun m f => note_hash b m = note_hash b f)
      (ops.foldl (diff_matched_step model_diff foreval_diff) acc).1
      (ops.foldl (diff_matched_step model_diff foreval_diff) acc).2
  | [], acc, _, hacc => hacc
  | oc :: rest, acc, hops, hacc => by
    rw [List.foldl_cons]
    refine diff_fold_spec b model_diff foreval_diff rest
      (diff_matched_step model_diff foreval_diff acc oc)
      (fun oc' hoc' => hops oc' (List.mem_cons_of_mem oc hoc')) ?_
    obtain ⟨⟨hb1, hb2, hb3, hb4⟩, haln⟩ := hops oc (List.mem_cons_self oc rest)
    unfold diff_matched_step
    match htag : oc.tag with
    | OpTag.equal =>
      obtain ⟨hlen, helt⟩ := haln htag
      have hslice := slice_forall₂ b model_diff foreval_diff oc.i1 oc.j1
        (oc.i2 - oc.i1) (by omega) (by omega)
        (fun k hk => by
          have hk1 : oc.i1 + k < model_diff.length := by omega
          have hk2 : oc.j1 + k < foreval_diff.length := by omega
          have := helt k hk
          rw [note_hash_getD b model_diff _ hk1,
            note_hash_getD b foreval_diff _ hk2] at this
          exact this)
      rw [show oc.j2 - oc.j1 = oc.i2 - oc.i1 from hlen.symm]
      exact List.rel_append hacc hslice
    | OpTag.insert => exact hacc
    | OpTag.delete => exact hacc
    | OpTag.replace => exact hacc

/-- **C9.** After a `diff()` run with the repository's own
edit-distance matcher, the matched-model and matched-for-eval lists are
index-aligned: each `equal` opcode contributes ranges of one common
length, so the lists have equal length and the `i`-th entries form a
matched pair whose pitches agree under the chosen equality — exact
pitch, or pitch mod 12 under octave reduction (`note_hash`). -/
theorem diff_matched_aligned (b_octave_reduction : Bool)
    (model_diff foreval_diff : List note_container) :
    List.Forall₂
      (fun m f => note_hash b_octave_reduction m =
        note_hash b_octave_reduction f)
      (diff_matched b_octave_reduction model_diff foreval_diff).1
      (diff_matched b_octave_reduction model_diff foreval_diff).2 ∧
    (diff_matched b_octave_reduction model_diff foreval_diff).1.length =
      (diff_matched b_octave_reduction model_diff foreval_diff).2.length := by
  rcases hops : get_opcodes
      (model_diff.map (note_hash b_octave_reduction))
      (foreval_diff.map (note_hash b_octave_reduction)) with _ | ops
  · have hval : diff_matched b_octave_reduction model_diff foreval_diff =
        ([], []) := by
      unfold diff_matched
      rw [hops]
    rw [hval]
    exact ⟨List.Forall₂.nil, rfl⟩
  · have hne : model_diff.map (note_hash b_octave_reduction) ≠ [] ∨
        foreval_diff.map (note_hash b_octave_reduction) ≠ [] := by
      by_contra hc
      push_neg at hc
      rw [hc.1, hc.2] at hops
      exact Option.noConfusion hops
    obtain ⟨ops', hops', hchain, halig⟩ := get_opcodes_spec _ _ hne
    rw [hops] at hops'
    injection hops' with hops'
    subst hops'
    have hval : diff_matched b_octave_reduction model_diff foreval_diff =
        ops.foldl (diff_matched_step model_diff foreval_diff) ([], []) := by
      unfold diff_matched
      rw [hops]
    rw [hval]
    have hforall := diff_fold_spec b_octave_reduction model_diff foreval_diff
      ops ([], [])
      (fun oc hoc => by
        have hb := ops_chain_bounds ops (0, 0) _ hchain oc hoc
        have ha := halig oc hoc
        refine ⟨?_, ha⟩
        have hlenm : (model_diff.map
            (note_hash b_octave_reduction)).length = model_diff.length :=
          List.length_map _ _
        have hlenf : (foreval_diff.map
            (note_hash b_octave_reduction)).length = foreval_diff.length :=
          List.length_map _ _
        obtain ⟨b1, b2, b3, b4⟩ := hb
        rw [hlenm] at b3
        rw [hlenf] at b4
        exact ⟨b1, b2, b3, b4⟩)
      List.Forall₂.nil
    exact ⟨hforall, hforall.length_eq⟩
